import Mathlib

/-!
Verification of the job-scraper core (`src/main.py`) against its
natural-language specification.

The Python source is shallowly embedded below.  Pure computations
(string normalisation, the date heuristics, the page arithmetic, the
sort) are translated directly into Lean functions; the I/O boundary
(HTTP fetch + HTML parse of one page) is made explicit as a function
parameter `Nat → Except String (List Job)` — one page index in, either
a parse/fetch failure or the page's surviving job tuples out, exactly
the unit of work `scrape_jobs` hands to its thread pool.  Machine
integers do not overflow in the source's ranges, so `Nat`/`Int` are
used directly.
-/

/-- A job tuple as built in `scrape_jobs_from_page` (src/main.py:121):
`(days_old, text)` where `text` is the rendered report entry.  The text
content is opaque for the properties below; `days_old` is the sole sort
key (src/main.py:285). -/
abbrev Job := Int × String

/-- The fields of one raw listing node that the extraction loop of
`scrape_jobs_from_page` (src/main.py:69-121) reads, after the
decorative nested tags (`comp-more`, `jobs-status`) have been
decomposed and the posted-date text has been stripped. -/
structure RawListing where
  companyName : String
  skillsText : String
  postedText : String
  link : String
deriving DecidableEq

/-- Python `str.strip()`: drop leading and trailing whitespace. -/
def stripChars (s : List Char) : List Char :=
  ((s.dropWhile Char.isWhitespace).reverse.dropWhile Char.isWhitespace).reverse

/-- Python `str.split(sep)` for a one-character separator: `""` splits
to `[""]`, and every separator occurrence opens a new (possibly empty)
token. -/
def splitOnChar (sep : Char) : List Char → List (List Char)
  | [] => [[]]
  | c :: cs =>
    if c == sep then [] :: splitOnChar sep cs
    else
      match splitOnChar sep cs with
      | [] => [[c]]
      | tok :: toks => (c :: tok) :: toks

/-- src/main.py:76-77 — `all_skills = ....text.replace(" ", "")
.replace(chr(34), "").strip().lower()`; `chr(34)` is the double quote,
`replace(x, "")` deletes every occurrence, and the site text is ASCII
so `lower()` is the character-wise lowering. -/
def normalizeSkillsText (t : String) : List Char :=
  (stripChars ((t.toList.filter fun c => c != ' ').filter fun c => c != '"')).map
    Char.toLower

/-- src/main.py:80 — `skills.replace(" ", "").split(",")`, the
configured skill filter tokens. -/
def skillFilterTokens (skills : String) : List (List Char) :=
  splitOnChar ',' (skills.toList.filter fun c => c != ' ')

/-- src/main.py:80 — `all_skills.split(",")`, the listing's advertised
skill tokens (the input is already space/quote-stripped and lowered). -/
def listingSkillTokens (all_skills : List Char) : List (List Char) :=
  splitOnChar ',' all_skills

/-- src/main.py:80 — the listing survives the skill step unless
`skills and not set(filter_tokens).issubset(listing_tokens)`.
Python's `if skills` is the emptiness test on the string; `issubset`
on sets built from the token lists is membership-wise containment. -/
def passesSkillFilter (skills : String) (all_skills : List Char) : Bool :=
  skills == "" ||
    (skillFilterTokens skills).all fun t => (listingSkillTokens all_skills).contains t

/-- Python's `\w` on the ASCII site vocabulary: letters, digits, `_`. -/
def isWordChar (c : Char) : Bool := c.isAlphanum || c == '_'

/-- `int()` on a captured group of decimal digits. -/
def digitVal (ds : List Char) : Nat :=
  ds.foldl (fun acc c => acc * 10 + (c.toNat - '0'.toNat)) 0

/-- One attempt of the regex `(\b\d+\b)\W<word>` anchored at the head of
`s` (src/main.py:98 with `word = "day"`, :100 with `word = "month"`):
a word boundary (the previous character, if any, is not a word
character), a maximal digit run, a word boundary plus one non-word
character (one `\W` character — being non-word it provides the trailing
`\b` as well), then the literal `word`.  Returns the captured integer. -/
def matchHere (word : List Char) (prevIsWord : Bool) (s : List Char) : Option Nat :=
  if prevIsWord then none
  else
    match s.takeWhile Char.isDigit, s.dropWhile Char.isDigit with
    | [], _ => none
    | _ :: _, [] => none
    | d :: ds, c :: rest =>
      if isWordChar c then none
      else if word.isPrefixOf rest then some (digitVal (d :: ds))
      else none

/-- `re.findall` scanning: try the anchored match at each position from
left to right, tracking whether the previous character was a word
character (for the leading `\b`); return the first captured group. -/
def findNumAux (word : List Char) (prevIsWord : Bool) : List Char → Option Nat
  | [] => none
  | c :: cs =>
    match matchHere word prevIsWord (c :: cs) with
    | some n => some n
    | none => findNumAux word (isWordChar c) cs

/-- `int(matches[0])` for `re.findall(r"(\b\d+\b)\W<word>", text)` when
the match list is non-empty (src/main.py:98-101); the start of the
string is a word boundary. -/
def findNum (word text : List Char) : Option Nat :=
  findNumAux word false text

/-- Python's substring test `pat in s`. -/
def hasSub (pat : List Char) : List Char → Bool
  | [] => pat.isEmpty
  | c :: cs => pat.isPrefixOf (c :: cs) || hasSub pat cs

/-- src/main.py:89-101 — the date normaliser: convert the stripped
posted-date phrase to an exact `days_old`, `-1` when uninterpretable.
The five rules are tried in the source's order and only the first match
applies (`if`/`elif` chain). -/
def normalizeDate (text : List Char) : Int :=
  if hasSub "today".toList text then 0
  else if hasSub "few days".toList text then 4
  else if hasSub "a month".toList text then 30
  else
    match findNum "day".toList text with
    | some n => (n : Int)
    | none =>
      match findNum "month".toList text with
      | some n => ((n : Int) * 30)
      | none => -1

/-- src/main.py:104 — the listing is skipped when
`days_old < 0 or days_old > max_days_old`. -/
def passesAgeFilter (days_old max_days_old : Int) : Bool :=
  !(days_old < 0 || days_old > max_days_old)

/-- src/main.py:62-123 — the pure part of one page's extraction loop:
apply the skill filter, normalise the posted date, apply the age
filter, and keep `(days_old, listing)` for each survivor.  (The
rendered text of src/main.py:115-119 additionally embeds the current
date and an industry name fetched from the detail page; those
I/O-derived strings are irrelevant to every property below, so the
survivor carries its raw listing instead.) -/
def scrape_jobs_from_page (skills : String) (max_days_old : Int)
    (listings : List RawListing) : List (Int × RawListing) :=
  listings.filterMap fun r =>
    let all_skills := normalizeSkillsText r.skillsText
    if !(passesSkillFilter skills all_skills) then none
    else
      let days_old := normalizeDate r.postedText.toList
      if !(passesAgeFilter days_old max_days_old) then none
      else some (days_old, r)

/-- src/main.py:272 — `total_pages = (total_search_results //
results_per_page) + (1 if total_search_results % results_per_page > 0
else 0)`. -/
def totalPagesOf (total_search_results results_per_page : Nat) : Nat :=
  total_search_results / results_per_page +
    (if total_search_results % results_per_page > 0 then 1 else 0)

/-- src/main.py:276 — `total_threads = min(total_pages, max_threads)`. -/
def totalThreadsOf (total_pages max_threads : Nat) : Nat :=
  min total_pages max_threads

/-- src/main.py:58 — `range(1, total_pages + 1)`, the page indices the
coordinator maps over. -/
def pageIndices (total_pages : Nat) : List Nat :=
  List.range' 1 total_pages

/-- Iterating the results of `executor.map(worker, pages)` in page
order, as `list(chain.from_iterable(...))` does on src/main.py:58: the
first worker exception encountered (in index order) propagates out of
the iteration; otherwise all page result lists are collected in order. -/
def collectPageResults (worker : Nat → Except String (List Job)) :
    List Nat → Except String (List (List Job))
  | [] => Except.ok []
  | p :: ps =>
    match worker p with
    | Except.error e => Except.error e
    | Except.ok jobs =>
      match collectPageResults worker ps with
      | Except.error e => Except.error e
      | Except.ok rest => Except.ok (jobs :: rest)

/-- src/main.py:53-58 — `scrape_jobs`: run one worker per page index
through a `ThreadPoolExecutor(max_workers=total_threads)` and flatten
the per-page lists.  `ThreadPoolExecutor` raises `ValueError` when
`max_workers <= 0`, and a worker exception re-raises when its result is
iterated, so the whole call either fails or yields every page's
listings concatenated in page order. -/
def scrape_jobs (total_pages total_threads : Nat)
    (worker : Nat → Except String (List Job)) : Except String (List Job) :=
  if total_threads = 0 then Except.error "max_workers must be greater than 0"
  else
    match collectPageResults worker (pageIndices total_pages) with
    | Except.error e => Except.error e
    | Except.ok pages => Except.ok pages.flatten

/-- An industry as resolved by `get_industry_from_user`
(src/main.py:167): the dict `{"id": ..., "name": ...}`. -/
structure Industry where
  id : String
  name : String
deriving DecidableEq

/-- src/main.py:149-167, configured-name path (a non-interactive run
with `industry_name` pre-set and no cached industry): `industry_id =
industries.get(industry_name, "") if industry_name else ""`; a warning
is printed when the name is set but unmatched; the returned dict is
`{"id": industry_id, "name": industry_name if industry_id else ""}`.
The scraped mapping name→id is an association list looked up by exact,
case-sensitive string equality (Python dict `get`).  The second
component of the result records whether the warning fired; there is no
exception path.  -/
def resolveIndustry (industries : List (String × String))
    (industry_name : String) : Industry × Bool :=
  let industry_id :=
    if industry_name == "" then "" else ((industries.lookup industry_name).getD "")
  let warned := industry_name != "" && industry_id == ""
  (⟨industry_id, if industry_id == "" then "" else industry_name⟩, warned)

/-- src/main.py:192-196 — `get_url_industry_param`; `none` models the
Python `None` held in `user_prefs["industry"]` before resolution (the
only falsy value that reaches the `if not industry` guard, since the
resolved dict always has two keys and is truthy even with empty
values). -/
def get_url_industry_param : Option Industry → String
  | none => ""
  | some ind =>
    "&clusterName=CLUSTER_IND&undokey=cboIndustry&cboIndustry=" ++ ind.id ++
      "&gadLink=" ++ String.mk (ind.name.toList.map fun c => if c == ' ' then '+' else c)

/-- src/main.py:285 — `jobs.sort(key=lambda x: x[0])`: Python's sort is
stable and ascending by the key; modelled by the (stable) insertion
sort ordered on the first component. -/
def reportSort (jobs : List Job) : List Job :=
  List.insertionSort (fun a b => a.1 ≤ b.1) jobs

/-- A concrete scrape cycle with two pages: page 1's fetch raises and
page 2 succeeds with one listing. -/
def c1Worker : Nat → Except String (List Job) := fun p =>
  if p = 1 then Except.error "page 1 fetch failed"
  else Except.ok [((3 : Int), "page 2 listing")]

instance : IsTotal Job fun a b => a.1 ≤ b.1 :=
  ⟨fun a b => Int.le_total a.1 b.1⟩

instance : IsTrans Job fun a b => a.1 ≤ b.1 :=
  ⟨fun _ _ _ h1 h2 => le_trans h1 h2⟩

/-! ## Helper lemmas -/

theorem passesSkillFilter_iff (skills : String) (s : List Char) (h : skills ≠ "") :
    passesSkillFilter skills s = true ↔
      ∀ t ∈ skillFilterTokens skills, t ∈ listingSkillTokens s := by
  simp [passesSkillFilter, h, List.all_eq_true, List.contains, List.elem_iff]

theorem mem_scrape_jobs_from_page {skills : String} {D d : Int} {r : RawListing}
    {listings : List RawListing} :
    (d, r) ∈ scrape_jobs_from_page skills D listings ↔
      r ∈ listings ∧ passesSkillFilter skills (normalizeSkillsText r.skillsText) = true ∧
        normalizeDate r.postedText.toList = d ∧ passesAgeFilter d D = true := by
  constructor
  · intro hmem
    obtain ⟨a, ha, hfa⟩ := List.mem_filterMap.mp hmem
    dsimp only [scrape_jobs_from_page] at hfa
    by_cases h1 : passesSkillFilter skills (normalizeSkillsText a.skillsText) = true
    · by_cases h2 : passesAgeFilter (normalizeDate a.postedText.toList) D = true
      · rw [h1, h2] at hfa
        simp at hfa
        obtain ⟨hd, hr⟩ := hfa
        subst hr
        refine ⟨ha, h1, hd, ?_⟩
        rw [← hd]
        exact h2
      · rw [Bool.not_eq_true] at h2
        rw [h1, h2] at hfa
        simp at hfa
    · rw [Bool.not_eq_true] at h1
      rw [h1] at hfa
      simp at hfa
  · rintro ⟨hmem, hskill, hdate, hage⟩
    refine List.mem_filterMap.mpr ⟨r, hmem, ?_⟩
    dsimp only [scrape_jobs_from_page]
    rw [if_neg (by simp [hskill]), hdate, if_neg (by simp [hage])]

/-! ## Claims -/

/-- C2: for every `SearchQuery` whose skill filter `F` is a non-empty
set of comma-separated tokens and every listing with advertised skill
set `S` (lowercased, quote- and space-stripped, comma-split), the
listing survives the skill filter of `scrape_jobs_from_page`
(src/main.py:80) if and only if `F ⊆ S` — subset containment, not
exact match and not non-empty intersection; moreover every listing a
page scrape retains satisfies the containment. -/
theorem c2_skill_filter_subset (skills rawSkills : String) (D d : Int)
    (listings : List RawListing) (r : RawListing) (hne : skills ≠ "") :
    (passesSkillFilter skills (normalizeSkillsText rawSkills) = true ↔
      ∀ t ∈ skillFilterTokens skills,
        t ∈ listingSkillTokens (normalizeSkillsText rawSkills))
    ∧ ((d, r) ∈ scrape_jobs_from_page skills D listings →
        ∀ t ∈ skillFilterTokens skills,
          t ∈ listingSkillTokens (normalizeSkillsText r.skillsText)) := by
  refine ⟨passesSkillFilter_iff _ _ hne, fun hmem => ?_⟩
  exact (passesSkillFilter_iff _ _ hne).mp (mem_scrape_jobs_from_page.mp hmem).2.1

/-- Witness for C2 at the end-to-end scenario of the spec: filter
`{"git","mongodb"}`, advertised skills `{"java","git","mongodb"}`. -/
theorem c2_skill_filter_subset_witness :
    ("git, mongodb" : String) ≠ "" ∧
      (passesSkillFilter "git, mongodb" (normalizeSkillsText " \"Java\", Git, MongoDb ") = true ↔
        ∀ t ∈ skillFilterTokens "git, mongodb",
          t ∈ listingSkillTokens (normalizeSkillsText " \"Java\", Git, MongoDb ")) :=
  ⟨by decide,
    (c2_skill_filter_subset "git, mongodb" " \"Java\", Git, MongoDb " 30 3 [] ⟨"", "", "", ""⟩
      (by decide)).1⟩

/-- C3: for every configured maximum age `D` and every listing with
normalised age `d`, the listing survives the age filter of
`scrape_jobs_from_page` (src/main.py:104) iff `0 ≤ d ≤ D`; the
sentinel `-1` is excluded by the same check, and every listing a page
scrape retains satisfies the window. -/
theorem c3_age_filter (d D : Int) (skills : String) (listings : List RawListing)
    (r : RawListing) :
    (passesAgeFilter d D = true ↔ 0 ≤ d ∧ d ≤ D)
    ∧ passesAgeFilter (-1) D = false
    ∧ ((d, r) ∈ scrape_jobs_from_page skills D listings → 0 ≤ d ∧ d ≤ D) := by
  have hiff : ∀ x : Int, passesAgeFilter x D = true ↔ 0 ≤ x ∧ x ≤ D := by
    intro x
    simp only [passesAgeFilter, Bool.not_eq_true', Bool.or_eq_false_iff,
      decide_eq_false_iff_not, not_lt]
  refine ⟨hiff d, ?_, fun hmem => (hiff d).mp (mem_scrape_jobs_from_page.mp hmem).2.2.2⟩
  have : ¬(0 ≤ (-1 : Int) ∧ (-1 : Int) ≤ D) := by intro h; omega
  rcases h : passesAgeFilter (-1) D with _ | _
  · rfl
  · exact absurd ((hiff (-1)).mp h) this

/-- Witness for C3: a listing aged 3 days against a 30-day window,
retained by a concrete page scrape. -/
theorem c3_age_filter_witness :
    (passesAgeFilter 3 30 = true ↔ (0 : Int) ≤ 3 ∧ (3 : Int) ≤ 30) ∧
      ((0 : Int) ≤ 3 ∧ (3 : Int) ≤ 30) :=
  ⟨(c3_age_filter 3 30 "" [] ⟨"", "", "", ""⟩).1,
    (c3_age_filter 3 30 ""
      [⟨"Acme", "git,mongodb", "Posted 3 days ago", "url"⟩]
      ⟨"Acme", "git,mongodb", "Posted 3 days ago", "url"⟩).2.2 (by decide)⟩

/-- C6: for every total match count `T ≥ 1`, page size `P ∈ [1, 200]`
and concurrency cap `C ∈ [1, 100]`, the coordinator's
`total_pages = T // P + (1 if T % P > 0 else 0)` (src/main.py:272)
equals `ceil(T / P)` (written `(T + P - 1) / P` in natural numbers),
exactly one page task is dispatched per page index in
`[1, total_pages]` (src/main.py:58), and
`total_threads = min(total_pages, C)` (src/main.py:276) never exceeds
`C`. -/
theorem c6_page_arithmetic (T P C : Nat) (hT : 1 ≤ T) (hP1 : 1 ≤ P) (hP2 : P ≤ 200)
    (hC1 : 1 ≤ C) (hC2 : C ≤ 100) :
    totalPagesOf T P = (T + P - 1) / P
    ∧ (∀ i : Nat, (pageIndices (totalPagesOf T P)).count i =
        if 1 ≤ i ∧ i ≤ totalPagesOf T P then 1 else 0)
    ∧ totalThreadsOf (totalPagesOf T P) C = min (totalPagesOf T P) C
    ∧ totalThreadsOf (totalPagesOf T P) C ≤ C := by
  have hP : 0 < P := hP1
  refine ⟨?_, ?_, rfl, Nat.min_le_right _ _⟩
  · unfold totalPagesOf
    have h1 : T + P - 1 = T + (P - 1) := by omega
    rw [h1, Nat.add_div hP]
    have h2 : (P - 1) % P = P - 1 := Nat.mod_eq_of_lt (by omega)
    have h3 : (P - 1) / P = 0 := Nat.div_eq_of_lt (by omega)
    rw [h2, h3]
    rcases Nat.eq_zero_or_pos (T % P) with h5 | h5
    · rw [h5, if_neg (by omega), if_neg (by omega : ¬ P ≤ 0 + (P - 1))]
    · rw [if_pos h5, if_pos (by omega : P ≤ T % P + (P - 1))]
  · intro i
    by_cases h : 1 ≤ i ∧ i ≤ totalPagesOf T P
    · rw [if_pos h]
      exact List.count_eq_one_of_mem (List.nodup_range' 1 _)
        (List.mem_range'_1.mpr ⟨h.1, by omega⟩)
    · rw [if_neg h]
      refine List.count_eq_zero.mpr fun hmem => h ?_
      have := List.mem_range'_1.mp hmem
      exact ⟨this.1, by omega⟩

/-- Witness for C6 at the spec's end-to-end scenario: `T = 450`,
`P = 200`, `C = 50` give three pages and three workers. -/
theorem c6_page_arithmetic_witness :
    totalPagesOf 450 200 = (450 + 200 - 1) / 200 ∧
      totalThreadsOf (totalPagesOf 450 200) 50 ≤ 50 :=
  ⟨(c6_page_arithmetic 450 200 50 (by decide) (by decide) (by decide) (by decide)
      (by decide)).1,
    (c6_page_arithmetic 450 200 50 (by decide) (by decide) (by decide) (by decide)
      (by decide)).2.2.2⟩

/-- C10 (implicit): when the probed total match count is `0`, `main`
computes `total_pages = 0` (src/main.py:272) and `total_threads =
min(0, max_threads) = 0` (src/main.py:276) — below the documented
valid concurrency range `[1, 100]` and below the thread pool's minimum
of one worker, so `ThreadPoolExecutor(max_workers=0)` raises
`ValueError` — and the dispatch range `range(1, total_pages + 1)` is
empty, so no page task can be dispatched for that cycle. -/
theorem c10_zero_matches (P C : Nat) (w : Nat → Except String (List Job))
    (hP1 : 1 ≤ P) (hP2 : P ≤ 200) (hC1 : 1 ≤ C) (hC2 : C ≤ 100) :
    totalPagesOf 0 P = 0
    ∧ totalThreadsOf (totalPagesOf 0 P) C = 0
    ∧ totalThreadsOf (totalPagesOf 0 P) C < 1
    ∧ pageIndices (totalPagesOf 0 P) = []
    ∧ scrape_jobs (totalPagesOf 0 P) (totalThreadsOf (totalPagesOf 0 P) C) w =
        Except.error "max_workers must be greater than 0" := by
  have h0 : totalPagesOf 0 P = 0 := by
    unfold totalPagesOf
    rw [Nat.zero_div, Nat.zero_mod]
    simp
  rw [h0]
  have hmin : totalThreadsOf 0 C = 0 := min_eq_left (Nat.zero_le C)
  exact ⟨rfl, hmin, by rw [hmin]; omega, rfl, by rw [hmin]; rfl⟩

/-- Witness for C10 with the source's defaults `P = 200`, `C = 50`. -/
theorem c10_zero_matches_witness :
    totalPagesOf 0 200 = 0 ∧
      scrape_jobs (totalPagesOf 0 200) (totalThreadsOf (totalPagesOf 0 200) 50)
          (fun _ => Except.ok []) =
        Except.error "max_workers must be greater than 0" :=
  ⟨(c10_zero_matches 200 50 (fun _ => Except.ok []) (by decide) (by decide) (by decide)
      (by decide)).1,
    (c10_zero_matches 200 50 (fun _ => Except.ok []) (by decide) (by decide) (by decide)
      (by decide)).2.2.2.2⟩

/-- C9: industry resolution (src/main.py:149-167) is case-sensitive
exact matching against the scraped industries mapping — a configured
name that matches no entry (including one differing only in case)
degrades to the no-filter Industry with empty id and empty name,
raising the warning signal instead of any fatal error, while an exact
match returns that entry without a warning; the degraded Industry
produces the URL industry parameter with empty `cboIndustry` and
`gadLink` values (src/main.py:192-196). -/
theorem c9_industry_resolution (industries : List (String × String)) (name id : String)
    (hname : name ≠ "") :
    (industries.lookup name = none → resolveIndustry industries name = (⟨"", ""⟩, true))
    ∧ (industries.lookup name = some id → id ≠ "" →
        resolveIndustry industries name = (⟨id, name⟩, false))
    ∧ resolveIndustry [("Accounting", "5")] "accounting" = (⟨"", ""⟩, true)
    ∧ resolveIndustry [("Accounting", "5")] "Accounting" = (⟨"5", "Accounting"⟩, false)
    ∧ get_url_industry_param (some ⟨"", ""⟩) =
        "&clusterName=CLUSTER_IND&undokey=cboIndustry&cboIndustry=&gadLink=" := by
  refine ⟨?_, ?_, by decide, by decide, by decide⟩
  · intro hl
    unfold resolveIndustry
    simp [hname, hl]
  · intro hl hid
    unfold resolveIndustry
    simp [hname, hl, hid]

/-- Witness for C9: a one-entry mapping, one unmatched configured name
and one exact match. -/
theorem c9_industry_resolution_witness :
    resolveIndustry [("IT Software", "200")] "Retailing" = (⟨"", ""⟩, true) ∧
      resolveIndustry [("IT Software", "200")] "IT Software" =
        (⟨"200", "IT Software"⟩, false) :=
  ⟨(c9_industry_resolution [("IT Software", "200")] "Retailing" "200" (by decide)).1 rfl,
    (c9_industry_resolution [("IT Software", "200")] "IT Software" "200" (by decide)).2.1
      rfl (by decide)⟩

theorem filter_orderedInsert_key (k : Int) (x : Job) (l : List Job) :
    (List.orderedInsert (fun a b => a.1 ≤ b.1) x l).filter (fun y => y.1 == k) =
      if x.1 = k then x :: l.filter (fun y => y.1 == k)
      else l.filter (fun y => y.1 == k) := by
  induction l with
  | nil =>
    simp only [List.orderedInsert, List.filter_cons, List.filter_nil]
    by_cases hxk : x.1 = k
    · rw [if_pos (beq_iff_eq.mpr hxk), if_pos hxk]
    · rw [if_neg (fun h => hxk (beq_iff_eq.mp h)), if_neg hxk]
  | cons b bs ih =>
    simp only [List.orderedInsert]
    by_cases hxb : x.1 ≤ b.1
    · rw [if_pos hxb, List.filter_cons]
      by_cases hxk : x.1 = k
      · rw [if_pos (beq_iff_eq.mpr hxk), if_pos hxk]
      · rw [if_neg (fun h => hxk (beq_iff_eq.mp h)), if_neg hxk]
    · rw [if_neg hxb, List.filter_cons, List.filter_cons, ih]
      by_cases hxk : x.1 = k
      · have hbk : (b.1 == k) = false := by
          refine beq_eq_false_iff_ne.mpr fun hbk => hxb ?_
          rw [hxk, hbk]
        rw [hbk]
        simp [hxk]
      · rw [if_neg hxk, if_neg hxk]

/-- Stability of the report sort: for every key, the sorted output
restricted to that key is the input restricted to that key, in the
input's (arrival) order. -/
theorem filter_reportSort_key (k : Int) (l : List Job) :
    (reportSort l).filter (fun y => y.1 == k) = l.filter (fun y => y.1 == k) := by
  unfold reportSort
  induction l with
  | nil => rfl
  | cons b bs ih =>
    simp only [List.insertionSort]
    rw [filter_orderedInsert_key, List.filter_cons]
    by_cases hbk : b.1 = k
    · rw [if_pos hbk, if_pos (beq_iff_eq.mpr hbk), ih]
    · rw [if_neg hbk, if_neg (fun h => hbk (beq_iff_eq.mp h)), ih]

/-- C8: the listing sequence rendered by the report builder
(src/main.py:285, `jobs.sort(key=lambda x: x[0])`) is sorted
non-decreasing by the `days_old` key, is a permutation of its input,
and the sort is stable: listings with equal `days_old` keep their
relative arrival order (their key-restricted subsequence is unchanged). -/
theorem c8_report_sort_sorted_stable (l : List Job) :
    List.Pairwise (fun a b : Job => a.1 ≤ b.1) (reportSort l)
    ∧ (∀ k : Int,
        (reportSort l).filter (fun y => y.1 == k) = l.filter (fun y => y.1 == k))
    ∧ List.Perm (reportSort l) l :=
  ⟨List.sorted_insertionSort _ l, fun k => filter_reportSort_key k l,
    List.perm_insertionSort _ l⟩

/-- C5 counterexample: the claim "a vague 'few days' entry is placed
strictly after every listing whose exactly-stated age is ≤ 4" fails at
the input where a vague listing (normalised to 4) arrives before a
listing exactly stated as "4 days ago" (also 4): the stable sort keeps
the tie in arrival order, so the vague entry is placed before — not
strictly after — an exactly-stated age-4 listing. -/
theorem c5_counterexample :
    normalizeDate "Posted few days ago".toList = 4
    ∧ normalizeDate "Posted 4 days ago".toList = 4
    ∧ reportSort [(normalizeDate "Posted few days ago".toList, "vague entry"),
        (normalizeDate "Posted 4 days ago".toList, "exact entry")] =
      [(4, "vague entry"), (4, "exact entry")]
    ∧ ¬((reportSort [(normalizeDate "Posted few days ago".toList, "vague entry"),
          (normalizeDate "Posted 4 days ago".toList, "exact entry")]).indexOf
            ((4 : Int), "vague entry") >
        (reportSort [(normalizeDate "Posted few days ago".toList, "vague entry"),
          (normalizeDate "Posted 4 days ago".toList, "exact entry")]).indexOf
            ((4 : Int), "exact entry")) :=
  ⟨by decide, by decide, by decide, by decide⟩

/-- C5 amended: a phrase containing "few days" (and not "today") is
normalised to age 4 (src/main.py:94-95), and in the sorted report
(src/main.py:285) such a vague entry is placed strictly after every
listing whose exactly-stated age is at most 3 (strictly below 4); for
an exactly-stated age of 4 the keys tie and the stable sort keeps
arrival order. -/
theorem c5_few_days_order :
    (∀ t : List Char, hasSub "today".toList t = false →
      hasSub "few days".toList t = true → normalizeDate t = 4)
    ∧ (∀ (l : List Job) (i j : Nat) (hi : i < (reportSort l).length)
        (hj : j < (reportSort l).length),
        ((reportSort l).get ⟨i, hi⟩).1 ≤ 3 → ((reportSort l).get ⟨j, hj⟩).1 = 4 →
          i < j) := by
  constructor
  · intro t h1 h2
    unfold normalizeDate
    rw [h1, h2]
    simp
  · intro l i j hi hj h3 h4
    have hp : List.Pairwise (fun a b : Job => a.1 ≤ b.1) (reportSort l) :=
      List.sorted_insertionSort _ l
    rcases Nat.lt_trichotomy i j with h | h | h
    · exact h
    · exfalso
      subst h
      have he : (reportSort l).get ⟨i, hi⟩ = (reportSort l).get ⟨i, hj⟩ := rfl
      rw [he] at h3
      omega
    · exfalso
      have hr := List.pairwise_iff_get.mp hp ⟨j, hj⟩ ⟨i, hi⟩ h
      omega

/-- Witness for C5 amended: the vague phrase normalises to 4, and in a
concrete sorted report the age-3 entry (index 0) precedes the age-4
entry (index 1). -/
theorem c5_few_days_order_witness :
    normalizeDate "Posted few days ago".toList = 4 ∧ (0 : Nat) < 1 :=
  ⟨c5_few_days_order.1 "Posted few days ago".toList (by decide) (by decide),
    c5_few_days_order.2 [(4, "vague"), (3, "exact")] 0 1 (by decide) (by decide)
      (by decide) (by decide)⟩

/-- C7: the date normaliser (src/main.py:89-101) returns 0 for every
phrase containing "today", 4 for a "few days" phrase not containing
"today", 30 for an "a month" phrase containing neither earlier pattern,
and in particular 30 for "a month ago", 4 for "few days ago" and -1
for "gibberish"; the rules are tried in exactly this priority order and
only the first matching rule applies. -/
theorem c7_date_normalizer_rules :
    (∀ t : List Char, hasSub "today".toList t = true → normalizeDate t = 0)
    ∧ (∀ t : List Char, hasSub "today".toList t = false →
        hasSub "few days".toList t = true → normalizeDate t = 4)
    ∧ (∀ t : List Char, hasSub "today".toList t = false →
        hasSub "few days".toList t = false → hasSub "a month".toList t = true →
        normalizeDate t = 30)
    ∧ normalizeDate "a month ago".toList = 30
    ∧ normalizeDate "few days ago".toList = 4
    ∧ normalizeDate "gibberish".toList = -1 := by
  refine ⟨?_, ?_, ?_, by decide, by decide, by decide⟩
  · intro t h
    unfold normalizeDate
    rw [h]
    simp
  · intro t h1 h2
    unfold normalizeDate
    rw [h1, h2]
    simp
  · intro t h1 h2 h3
    unfold normalizeDate
    rw [h1, h2, h3]
    simp

/-- Witness for C7: a phrase containing "today" normalises to 0. -/
theorem c7_date_normalizer_rules_witness :
    normalizeDate "Posted today".toList = 0 :=
  c7_date_normalizer_rules.1 "Posted today".toList (by decide)

theorem mem_of_isPrefixOf {p s : List Char} {c : Char}
    (h : p.isPrefixOf s = true) (hc : c ∈ p) : c ∈ s := by
  induction p generalizing s with
  | nil => cases hc
  | cons a as ih =>
    cases s with
    | nil => simp [List.isPrefixOf] at h
    | cons b bs =>
      simp only [List.isPrefixOf, Bool.and_eq_true, beq_iff_eq] at h
      obtain ⟨hab, hpre⟩ := h
      rcases List.mem_cons.mp hc with h' | h'
      · exact List.mem_cons.mpr (Or.inl (h'.trans hab))
      · exact List.mem_cons.mpr (Or.inr (ih hpre h'))

theorem mem_of_hasSub {p s : List Char} {c : Char}
    (h : hasSub p s = true) (hc : c ∈ p) : c ∈ s := by
  induction s with
  | nil =>
    simp only [hasSub, List.isEmpty_iff] at h
    subst h
    cases hc
  | cons b bs ih =>
    simp only [hasSub, Bool.or_eq_true] at h
    rcases h with h | h
    · exact mem_of_isPrefixOf h hc
    · exact List.mem_cons.mpr (Or.inr (ih h))

theorem takeWhile_append_cons {p : Char → Bool} {l : List Char} {c : Char}
    {r : List Char} (hl : ∀ x ∈ l, p x = true) (hc : p c = false) :
    (l ++ c :: r).takeWhile p = l := by
  induction l with
  | nil => simp [List.takeWhile_cons, hc]
  | cons a as ih =>
    have ha : p a = true := hl a (List.mem_cons_self a as)
    simp [List.takeWhile_cons, ha, ih fun x hx => hl x (List.mem_cons_of_mem a hx)]

theorem dropWhile_append_cons {p : Char → Bool} {l : List Char} {c : Char}
    {r : List Char} (hl : ∀ x ∈ l, p x = true) (hc : p c = false) :
    (l ++ c :: r).dropWhile p = c :: r := by
  induction l with
  | nil => simp [List.dropWhile_cons, hc]
  | cons a as ih =>
    have ha : p a = true := hl a (List.mem_cons_self a as)
    simp [List.dropWhile_cons, ha, ih fun x hx => hl x (List.mem_cons_of_mem a hx)]

theorem findNumAux_cons_eq {word : List Char} {b : Bool} {c : Char} {cs : List Char}
    {n : Nat} (h : matchHere word b (c :: cs) = some n) :
    findNumAux word b (c :: cs) = some n := by
  unfold findNumAux
  rw [h]

/-- The regex scan `(\b\d+\b)\W<word>` succeeds at the head of
`digits ++ separator :: rest` when the separator is a non-word
non-digit character and `word` heads `rest`, capturing the digit run. -/
theorem findNum_digits_head {word ds : List Char} {c : Char} {rest : List Char}
    (hne : ds ≠ []) (hd : ∀ x ∈ ds, x.isDigit = true)
    (hcw : isWordChar c = false) (hcd : c.isDigit = false)
    (hw : word.isPrefixOf rest = true) :
    findNum word (ds ++ c :: rest) = some (digitVal ds) := by
  cases ds with
  | nil => exact absurd rfl hne
  | cons d ds2 =>
    have hm : matchHere word false ((d :: ds2) ++ c :: rest) =
        some (digitVal (d :: ds2)) := by
      unfold matchHere
      rw [if_neg (by simp), takeWhile_append_cons hd hcd,
        dropWhile_append_cons hd hcd]
      simp [hcw, hw]
    exact findNumAux_cons_eq hm

/-- C4: for every decimal numeral (digit run `ds`) denoting an integer
of at most 10000, the date normaliser applied to the phrase
"<n> days ago" returns exactly the embedded integer (src/main.py:98-99),
and none of the earlier "today", "few days", "a month" rules fires on
such a phrase. -/
theorem c4_days_ago_roundtrip (ds : List Char) (h1 : ds ≠ [])
    (h2 : ∀ x ∈ ds, x.isDigit = true) (h3 : digitVal ds ≤ 10000) :
    normalizeDate (ds ++ " days ago".toList) = (digitVal ds : Int)
    ∧ hasSub "today".toList (ds ++ " days ago".toList) = false
    ∧ hasSub "few days".toList (ds ++ " days ago".toList) = false
    ∧ hasSub "a month".toList (ds ++ " days ago".toList) = false := by
  have hnotmem : ∀ c : Char, c.isDigit = false → c ∉ " days ago".toList →
      c ∉ ds ++ " days ago".toList := by
    intro c hcd hcs hmem
    rcases List.mem_append.mp hmem with h | h
    · simp [h2 c h] at hcd
    · exact hcs h
  have htoday : hasSub "today".toList (ds ++ " days ago".toList) = false := by
    rw [Bool.eq_false_iff]
    intro h
    exact hnotmem 't' (by decide) (by decide) (mem_of_hasSub h (by decide))
  have hfew : hasSub "few days".toList (ds ++ " days ago".toList) = false := by
    rw [Bool.eq_false_iff]
    intro h
    exact hnotmem 'f' (by decide) (by decide) (mem_of_hasSub h (by decide))
  have hmonth : hasSub "a month".toList (ds ++ " days ago".toList) = false := by
    rw [Bool.eq_false_iff]
    intro h
    exact hnotmem 'm' (by decide) (by decide) (mem_of_hasSub h (by decide))
  have hsplit : (" days ago".toList : List Char) = ' ' :: "days ago".toList := rfl
  have hday : findNum "day".toList (ds ++ " days ago".toList) = some (digitVal ds) := by
    rw [hsplit]
    exact findNum_digits_head h1 h2 (by decide) (by decide) (by decide)
  refine ⟨?_, htoday, hfew, hmonth⟩
  unfold normalizeDate
  rw [htoday, hfew, hmonth, hday]
  simp

/-- Witness for C4 at the numeral "42". -/
theorem c4_days_ago_roundtrip_witness :
    normalizeDate ("42".toList ++ " days ago".toList) = (digitVal "42".toList : Int) :=
  (c4_days_ago_roundtrip "42".toList (by decide) (by decide) (by decide)).1

theorem collectPageResults_error {worker : Nat → Except String (List Job)}
    {ps : List Nat} (h : ∃ p, p ∈ ps ∧ ∃ e, worker p = Except.error e) :
    ∃ e, collectPageResults worker ps = Except.error e := by
  induction ps with
  | nil =>
    obtain ⟨p, hp, _⟩ := h
    cases hp
  | cons q qs ih =>
    obtain ⟨p, hp, e, he⟩ := h
    unfold collectPageResults
    cases hq : worker q with
    | error e0 => exact ⟨e0, rfl⟩
    | ok l =>
      have hpqs : p ∈ qs := by
        rcases List.mem_cons.mp hp with h' | h'
        · rw [h', hq] at he
          cases he
        · exact h'
      obtain ⟨e1, he1⟩ := ih ⟨p, hpqs, e, he⟩
      rw [he1]
      exact ⟨e1, rfl⟩

theorem collectPageResults_ok {worker : Nat → Except String (List Job)}
    {ps : List Nat} (h : ∀ p ∈ ps, ∃ l, worker p = Except.ok l) :
    ∃ ls, collectPageResults worker ps = Except.ok ls ∧
      ∀ p ∈ ps, ∀ l, worker p = Except.ok l → l ∈ ls := by
  induction ps with
  | nil => exact ⟨[], rfl, fun p hp => absurd hp (List.not_mem_nil p)⟩
  | cons q qs ih =>
    obtain ⟨lq, hlq⟩ := h q (List.mem_cons_self q qs)
    obtain ⟨ls, hls, hmem⟩ := ih fun p hp => h p (List.mem_cons_of_mem q hp)
    refine ⟨lq :: ls, ?_, ?_⟩
    · unfold collectPageResults
      rw [hlq, hls]
    · intro p hp l hl
      rcases List.mem_cons.mp hp with h' | h'
      · subst h'
        rw [hlq] at hl
        cases hl
        exact List.mem_cons_self lq ls
      · exact List.mem_cons.mpr (Or.inr (hmem p h' l hl))

/-- C1 counterexample: with two pages where page 1's fetch raises and
page 2 succeeds with one listing, `scrape_jobs` (src/main.py:53-58)
propagates page 1's exception out of `executor.map` — the cycle aborts
and the aggregate result is the error, not a listing sequence
containing page 2's listings; the claim that the failing page merely
"contributes zero listings" while the aggregate retains the succeeding
pages' listings is false at this input. -/
theorem c1_counterexample :
    c1Worker 2 = Except.ok [((3 : Int), "page 2 listing")]
    ∧ scrape_jobs 2 2 c1Worker = Except.error "page 1 fetch failed"
    ∧ (scrape_jobs 2 2 c1Worker).toOption = none :=
  ⟨rfl, rfl, rfl⟩

/-- C1 amended: `scrape_jobs` does not isolate page failures — if any
dispatched page's fetch or parse fails, the first such failure (in page
order) propagates and the whole aggregation yields an error rather than
the succeeding pages' listings; only when every page succeeds does the
aggregate contain every page's listings. -/
theorem c1_failure_propagation (total_pages total_threads : Nat)
    (worker : Nat → Except String (List Job)) (ht : 1 ≤ total_threads) :
    ((∃ p, p ∈ pageIndices total_pages ∧ ∃ e, worker p = Except.error e) →
      ∃ e, scrape_jobs total_pages total_threads worker = Except.error e)
    ∧ ((∀ p ∈ pageIndices total_pages, ∃ l, worker p = Except.ok l) →
      ∃ L, scrape_jobs total_pages total_threads worker = Except.ok L ∧
        ∀ p ∈ pageIndices total_pages, ∀ l, worker p = Except.ok l →
          ∀ j ∈ l, j ∈ L) := by
  have h0 : total_threads ≠ 0 := by omega
  constructor
  · intro h
    obtain ⟨e, he⟩ := collectPageResults_error h
    unfold scrape_jobs
    rw [if_neg h0, he]
    exact ⟨e, rfl⟩
  · intro h
    obtain ⟨ls, hls, hmem⟩ := collectPageResults_ok h
    refine ⟨ls.flatten, ?_, ?_⟩
    · unfold scrape_jobs
      rw [if_neg h0, hls]
    · intro p hp l hl j hj
      exact List.mem_flatten.mpr ⟨l, hmem p hp l hl, hj⟩

/-- Witness for C1 amended, on the same two-page cycle as the
counterexample: the failure branch applies at page 1. -/
theorem c1_failure_propagation_witness :
    ∃ e, scrape_jobs 2 2 c1Worker = Except.error e :=
  (c1_failure_propagation 2 2 c1Worker (by decide)).1
    ⟨1, by decide, "page 1 fetch failed", rfl⟩
